import Mathlib

/-!
Verification of the phono-sim core: a shallow embedding of the phoneme
tokenizer, feature encoder, syllabifier, word-encoding aggregator, fold
reduction and entropy computation from
`src/phone_similarity/base_bit_array_specification.py`,
`src/phone_similarity/bit_array_generator.py` and
`src/phone_similarity/entropy_analyzer.py`, together with proofs about
the claims of the specification.

Modelling conventions:
* Python `bitarray` values are `List Bool`; binary bitwise operators of
  the bitarray library demand equal lengths and raise `ValueError`
  otherwise, so `bitOr2` / `bitXor2` return `Except PyErr _`.
* Python exceptions are the `PyErr` inductive; a raised exception is an
  `Except.error` result.
* Python float arithmetic is modelled over the exact reals.
* `logging.warning` calls are modelled as an extra returned list of the
  positions at which a warning is emitted; they do not alter control
  flow, exactly as in the source.
* Python slices clamp out-of-range indices, matching `List.take` /
  `List.drop` on `Nat`; Python `[0] * n` for negative `n` is the empty
  list, matching truncated `Nat` subtraction in the padding step.
-/

set_option maxRecDepth 100000

/-- Python exceptions that the embedded code can raise. -/
inductive PyErr where
  | indexError
  | keyError
  | valueError
  | assertionError
deriving DecidableEq, Repr

/-- A value stored in a phoneme's feature dictionary: Python `bool` or `str`. -/
inductive FeatVal where
  | bool (b : Bool)
  | str (s : String)
deriving DecidableEq, Repr

/-- A phoneme's feature dictionary: insertion-ordered key/value pairs
(Python `dict` with unique keys). -/
abbrev FeatMap := List (String × FeatVal)

/-- The schema data a `BitArrayGenerator` instance is built from:
`vowels`, `features_per_phoneme`, and the two ordered column tuples that
`sort_features` produces from the `features` argument.  The
`_consonants` attribute of the Python object is stored but never read
by any of the operations verified here, so it is not carried. -/
structure Schema where
  vowels : List String
  features_per_phoneme : List (String × FeatMap)
  consCols : List String
  vowelCols : List String

/-- Bitwise OR of two bitarrays; the bitarray library raises `ValueError`
when the lengths differ. -/
def bitOr2 (a b : List Bool) : Except PyErr (List Bool) :=
  if a.length = b.length then .ok (List.zipWith (fun x y => x || y) a b)
  else .error .valueError

/-- Bitwise XOR of two bitarrays; `ValueError` when lengths differ. -/
def bitXor2 (a b : List Bool) : Except PyErr (List Bool) :=
  if a.length = b.length then .ok (List.zipWith (fun x y => xor x y) a b)
  else .error .valueError

/-- Python `str.split(sep)` for a single-character separator. -/
def splitOnChar (c : Char) : List Char → List (List Char)
  | [] => [[]]
  | x :: xs =>
      if x = c then [] :: splitOnChar c xs
      else
        match splitOnChar c xs with
        | h :: t => (x :: h) :: t
        | [] => [[x]]

/-- Truthiness of a feature value, as Python evaluates `x or y`:
`False` and the empty string are falsy. -/
def featTruthy : FeatVal → Bool
  | .bool b => b
  | .str s => s ≠ ""

/-- Python `int(x)` for the left operand of `get(col, False) or ...`,
restricted to outcomes the surrounding `bitarray(bits)` constructor
accepts: `int` of a bool is its bit; `int` of a decimal-digit string is
its value, usable only when it is 0 or 1; anything else ends in a
`ValueError` (either from `int()` itself, e.g. `int("velar")`, or later
from `bitarray` rejecting an integer outside {0,1}).  Exotic accepted
literals (leading whitespace, an explicit sign, underscores) are not
modelled; no schema in the repository produces them. -/
def pyDigits? (l : List Char) : Option Nat :=
  if l = [] then none
  else if l.all (fun c => c.isDigit) then
    some (l.foldl (fun n c => n * 10 + (c.toNat - 48)) 0)
  else none

/-- See the comment above: the decimal-literal outcomes of `int(x)`. -/
def pyIntVal : FeatVal → Except PyErr Bool
  | .bool b => .ok b
  | .str s =>
      match pyDigits? s.toList with
      | some 0 => .ok false
      | some 1 => .ok true
      | _ => .error .valueError

/-- One column of `features_to_bitarray`
(`base_bit_array_specification.py`, lines 114-122): an `=` column is an
attribute/value test, otherwise the bit is
`int(feature_dict.get(col, False) or col in feature_dict.values())`. -/
def column_bit (fd : FeatMap) (col : String) : Except PyErr Bool :=
  if col.toList.contains '=' then
    match splitOnChar '=' col.toList with
    | [attr, val] =>
        .ok (decide (fd.lookup (String.mk attr) = some (.str (String.mk val))))
    | _ => .error .valueError
  else
    let got := (fd.lookup col).getD (.bool false)
    let inValues := fd.any (fun kv => decide (kv.2 = FeatVal.str col))
    if featTruthy got then pyIntVal got else .ok inValues

/-- `features_to_bitarray(feature_dict, columns)`: one bit per column, in
column order (`base_bit_array_specification.py`, lines 91-124; the
`for` loop appends to `bits`, raising at the first bad column). -/
def features_to_bitarray (fd : FeatMap) : List String → Except PyErr (List Bool)
  | [] => .ok []
  | col :: cols =>
      match column_bit fd col with
      | .error e => .error e
      | .ok b =>
          match features_to_bitarray fd cols with
          | .error e => .error e
          | .ok bs => .ok (b :: bs)

/-- `get_phoneme_features`: feature lookup, `ValueError` for an unknown
phoneme (`base_bit_array_specification.py`, lines 65-89). -/
def get_phoneme_features (sch : Schema) (phoneme : String) : Except PyErr FeatMap :=
  match sch.features_per_phoneme.lookup phoneme with
  | some fd => .ok fd
  | none => .error .valueError

/-- The known phoneme strings, as codepoint lists.  The Python object
keeps them sorted by length, but `search_phonemes` compares each against
one fixed prefix of the input, so only membership matters. -/
def phonesL (sch : Schema) : List (List Char) :=
  sch.features_per_phoneme.map (fun kv => kv.1.toList)

/-- `self._max_phoneme_size`: the longest phoneme length in the schema. -/
def max_phoneme_size (sch : Schema) : Nat :=
  (phonesL sch).foldr (fun p m => max p.length m) 0

/-- `search_phonemes` (lines 126-148) scans candidate lengths `idx` from
`len(ipa_str)` down to 1 and returns the first prefix that is a known
phoneme.  This variant returns the matched length, 0 meaning `None`. -/
def searchLen (phones : List (List Char)) (w : List Char) : Nat → Nat
  | 0 => 0
  | i + 1 => if w.take (i + 1) ∈ phones then i + 1 else searchLen phones w i

/-- The `ipa_tokenizer` loop (lines 174-193).  `cap` is the constant
window bound `min(self._max_phoneme_size, len(ipa_str) - 1)` of line
178; `start` is the current position, tracked for the warning log.  The
result is (tokens, positions at which `logging.warning` fired).  The
first argument is fuel; `input length + 1` iterations always suffice
because every iteration consumes at least one character or ends the
loop, and the fuel-exhausted branch is unreachable under that bound. -/
def tokLoopF (phones : List (List Char)) (cap : Nat) :
    Nat → List Char → Nat → List (List Char) × List Nat
  | 0, _, _ => ([], [])
  | _ + 1, [], start => ([], [start])
  | f + 1, c :: rs, start =>
      let w := (c :: rs).take cap
      let L := searchLen phones w w.length
      if L = 0 then
        let r := tokLoopF phones cap f rs (start + 1)
        (r.1, start :: r.2)
      else
        let r := tokLoopF phones cap f ((c :: rs).drop L) (start + L)
        (w.take L :: r.1, r.2)

/-- `ipa_tokenizer` together with its warning log: the token list and the
positions at which a warning is emitted (one per skipped character,
plus the one always emitted by the final `start == len` iteration,
whose empty search window never matches). -/
def ipa_tokenizer_log (sch : Schema) (s : String) : List String × List Nat :=
  let l := s.toList
  let r := tokLoopF (phonesL sch) (min (max_phoneme_size sch) (l.length - 1))
      (l.length + 1) l 0
  (r.1.map (fun t => String.mk t), r.2)

/-- `ipa_tokenizer(ipa_str)`: the returned token list. -/
def ipa_tokenizer (sch : Schema) (s : String) : List String :=
  (ipa_tokenizer_log sch s).1

/-- A syllable record (`Dict[str, bitarray]` with keys among
`onset`/`nucleus`/`coda`); a missing key is `none`. -/
structure Syl where
  onset : Option (List Bool)
  nucleus : Option (List Bool)
  coda : Option (List Bool)
deriving DecidableEq, Repr

/-- `self._features[feature_type]`: the ordered column tuple for a
feature type (only the keys `"consonant"` and `"vowel"` exist). -/
def featuresOf (sch : Schema) : String → List String
  | "consonant" => sch.consCols
  | "vowel" => sch.vowelCols
  | _ => []

/-- `empty_vector(feature_type)` (`bit_array_generator.py`, lines
255-274): an all-zero bitarray of the column count. -/
def empty_vector (sch : Schema) (feature_type : String) : List Bool :=
  List.replicate (featuresOf sch feature_type).length false

/-- `update_array_segment(phoneme, current_segment, feature_type)`
(lines 224-253): OR the phoneme's encoded features into the segment. -/
def update_array_segment (sch : Schema) (phoneme : String) (current_segment : List Bool)
    (feature_type : String) : Except PyErr (List Bool) :=
  match get_phoneme_features sch phoneme with
  | .error e => .error e
  | .ok fd =>
      match features_to_bitarray fd (featuresOf sch feature_type) with
      | .error e => .error e
      | .ok bv => bitOr2 current_segment bv

/-- One inner `while` of `ipa_to_syllable`: consume tokens whose
vowel-membership equals `vowelMode`, accumulating their encodings into
`seg`; return the segment and the unconsumed tokens.  Instantiated with
`vowelMode = false, feature_type = "consonant"` for the onset loop
(lines 122-126) and the coda loop (lines 165-169), and with
`vowelMode = true, feature_type = "vowel"` for the nucleus loop (lines
149-160; the multiple-vowel `logging.warning` there has no effect on
the computation and is not tracked). -/
def gather_segment (sch : Schema) (vowelMode : Bool) (feature_type : String) :
    List Bool → List String → Except PyErr (List Bool × List String)
  | seg, [] => .ok (seg, [])
  | seg, t :: ts =>
      if decide (t ∈ sch.vowels) = vowelMode then
        match update_array_segment sch t seg feature_type with
        | .error e => .error e
        | .ok seg2 => gather_segment sch vowelMode feature_type seg2 ts
      else .ok (seg, t :: ts)

/-- The boundary-merge step of `ipa_to_syllable` (lines 138-142): when a
previous syllable exists and has a coda, redefine the gathered onset as
`previous coda OR onset`, and delete the previous coda when the token
now under the cursor is a vowel. -/
def boundary_merge (results : List Syl) (onset : List Bool) (nextIsVowel : Bool) :
    Except PyErr (List Syl × List Bool) :=
  match results.getLast? with
  | none => .ok (results, onset)
  | some last =>
      match last.coda with
      | none => .ok (results, onset)
      | some c =>
          match bitOr2 c onset with
          | .error e => .error e
          | .ok onset2 =>
              .ok ((if nextIsVowel then results.dropLast ++ [{ last with coda := none }]
                    else results), onset2)

/-- Record construction of `ipa_to_syllable` (lines 171-187): the
nucleus is always stored; the coda and onset are stored only when some
bit is set (`sum(...) > 0`). -/
def mkResult (onset nucleus coda : List Bool) : Syl :=
  { nucleus := some nucleus
    coda := if coda.any (fun b => b) then some coda else none
    onset := if onset.any (fun b => b) then some onset else none }

/-- The end-of-input branch of `ipa_to_syllable` (lines 130-136),
reached when onset gathering exhausts the tokens: rewrite the last
result record, reading `results[-1]` (`IndexError` on an empty result
list) and then its `onset`, `nucleus` and `coda` keys (`KeyError` when
one is missing), OR-ing the pending onset into the coda. -/
def end_merge (results : List Syl) (onset : List Bool) : Except PyErr (List Syl) :=
  match results.getLast? with
  | none => .error .indexError
  | some last =>
      match last.onset, last.nucleus, last.coda with
      | some o, some nu, some c =>
          match bitOr2 c onset with
          | .error e => .error e
          | .ok c2 => .ok (results.dropLast ++ [⟨some o, some nu, some c2⟩])
      | _, _, _ => .error .keyError

/-- The outer `while i < n` loop of `ipa_to_syllable` (lines 118-197).
The first argument is fuel; `token count + 1` always suffices because
every iteration that recurses consumes at least the vowel under the
cursor, and the fuel-exhausted branch is unreachable under that bound.
Branches:
* no tokens left: return the accumulated results;
* onset gathering reaches the end of the tokens (line 130): rewrite the
  last result, reading its `onset`/`nucleus`/`coda` keys (`KeyError`
  when one is missing) after `results[-1]` (`IndexError` when there is
  no previous syllable), then break;
* otherwise boundary-merge, assert the cursor token is a vowel
  (`AssertionError` when not), gather nucleus and coda, append the new
  record, and continue. -/
def syllLoopF (sch : Schema) : Nat → List String → List Syl → Except PyErr (List Syl)
  | 0, _, _ => .error .assertionError
  | _ + 1, [], results => .ok results
  | f + 1, t0 :: ts0, results =>
      match gather_segment sch false "consonant" (empty_vector sch "consonant") (t0 :: ts0) with
      | .error e => .error e
      | .ok (onset, rest) =>
          match rest with
          | [] => end_merge results onset
          | t :: _ =>
              match boundary_merge results onset (decide (t ∈ sch.vowels)) with
              | .error e => .error e
              | .ok (results2, onset2) =>
                  if t ∈ sch.vowels then
                    match gather_segment sch true "vowel" (empty_vector sch "vowel") rest with
                    | .error e => .error e
                    | .ok (nucleus, rest2) =>
                        match gather_segment sch false "consonant"
                            (empty_vector sch "consonant") rest2 with
                        | .error e => .error e
                        | .ok (coda, rest3) =>
                            syllLoopF sch f rest3 (results2 ++ [mkResult onset2 nucleus coda])
                  else .error .assertionError

/-- `ipa_to_syllable` applied to an already tokenized sequence. -/
def syllabify_tokens (sch : Schema) (toks : List String) : Except PyErr (List Syl) :=
  syllLoopF sch (toks.length + 1) toks []

/-- `ipa_to_syllable(ipa_str)` (lines 81-199). -/
def ipa_to_syllable (sch : Schema) (ipa : String) : Except PyErr (List Syl) :=
  syllabify_tokens sch (ipa_tokenizer sch ipa)

/-- `max_syllable_length` (lines 21-31): consonant width twice plus the
vowel width (the `hasattr(self, "empty_vector")` guard always holds on
a `BitArrayGenerator`). -/
def max_syllable_length (sch : Schema) : Nat :=
  sch.consCols.length * 2 + sch.vowelCols.length

/-- The per-syllable bits appended by `ipa_to_bitarray` (lines 68-69):
the present fields in reverse-alphabetical key order, i.e. onset, then
nucleus, then coda (`sorted(keys, reverse=True)` on subsets of
{"onset","nucleus","coda"}). -/
def syl_fields (s : Syl) : List Bool :=
  (match s.onset with | some o => o | none => []) ++
  (match s.nucleus with | some nu => nu | none => []) ++
  (match s.coda with | some c => c | none => []) 

/-- The `for idx, _arr_parts in enumerate(..., start=1)` loop of
`ipa_to_bitarray` (lines 66-71): concatenate each record's fields and
break once `idx == max_syllables`. -/
def aggLoop (mss : Nat) : Nat → List Syl → List Bool
  | _, [] => []
  | idx, s :: rest => syl_fields s ++ (if idx = mss then [] else aggLoop mss (idx + 1) rest)

/-- The aggregation of `ipa_to_bitarray` on a syllable list (lines
65-79): concatenate the reversed records' fields, stopping after
`max_syllables` of them, then zero-pad on the right to
`max_syllable_length * max_syllables` bits.  A Python negative repeat
count empties, so an over-long accumulation is returned unpadded, and
the `try` around the padding never catches anything. -/
def to_word_encoding (msl mss : Nat) (sylls : List Syl) : List Bool :=
  let arr := aggLoop mss 1 sylls.reverse
  arr ++ List.replicate (msl * mss - arr.length) false

/-- `ipa_to_bitarray(ipa, max_syllables)` (lines 40-79). -/
def ipa_to_bitarray (sch : Schema) (ipa : String) (mss : Nat) : Except PyErr (List Bool) :=
  match ipa_to_syllable sch ipa with
  | .error e => .error e
  | .ok sylls => .ok (to_word_encoding (max_syllable_length sch) mss sylls)

/-- The slice loop of `fold` (lines 279-288), iterating `k` more times
starting at bit offset `pos`: XOR the next `msl`-wide slice (clamped by
Python slicing) into the accumulator. -/
def foldGo (msl : Nat) (arr : List Bool) : List Bool → Nat → Nat → Except PyErr (List Bool)
  | acc, _, 0 => .ok acc
  | acc, pos, k + 1 =>
      match bitXor2 acc ((arr.drop pos).take msl) with
      | .error e => .error e
      | .ok acc2 => foldGo msl arr acc2 (pos + msl) k

/-- `fold(arr)` (lines 276-288) with the instance's
`max_syllables_per_text_chunk` and `max_syllable_length` explicit:
XOR-reduce `mss` slices of width `msl` into one slice.  Python
`range(start, stop, 0)` raises `ValueError`, covering `msl = 0`. -/
def fold (mss msl : Nat) (arr : List Bool) : Except PyErr (List Bool) :=
  if msl = 0 then .error .valueError
  else foldGo msl arr (List.replicate msl false) 0 mss

/-- `calculate_entropy(counts)` (`entropy_analyzer.py`, lines 91-111)
over the multiset of counter values, floats modelled as reals: 0 for an
empty distribution, otherwise the loop subtracts `p * log2 p` for every
positive count. -/
noncomputable def calculate_entropy (counts : List Nat) : ℝ :=
  let total := counts.sum
  if total = 0 then 0
  else counts.foldl
    (fun (e : ℝ) (c : Nat) => if 0 < c then
        e - ((c : ℝ) / (total : ℝ)) * Real.logb 2 ((c : ℝ) / (total : ℝ))
      else e) 0

/-- Lexicographic comparison of codepoint lists, as Python compares
strings. -/
def listLe : List Char → List Char → Bool
  | [], _ => true
  | _ :: _, [] => false
  | a :: as_, b :: bs =>
      if a.toNat < b.toNat then true
      else if b.toNat < a.toNat then false
      else listLe as_ bs

/-- Insert into a sorted list of strings (helper for `sort_features`). -/
def insertStr (x : String) : List String → List String
  | [] => [x]
  | y :: ys => if listLe x.toList y.toList then x :: y :: ys else y :: insertStr x ys

/-- `sort_features` (`base_bit_array_specification.py`, lines 43-63)
turns each feature-column set into a sorted tuple; this is the sort it
applies, stable insertion sort under Python string order. -/
def sort_features (cols : List String) : List String :=
  cols.foldr insertStr []

/-- `CONSONANT_COLUMNS` of `language/en_gb.py` (a Python set, written
here in source order; `sort_features` fixes the bit order). -/
def consonantColumns : List String :=
  ["voiced", "labial", "dental", "alveolar", "post-alveolar", "palatal", "velar",
   "glottal", "plosive", "fricative", "affricate", "nasal", "approximant",
   "lateral_approximant"]

/-- `VOWEL_COLUMNS` of `language/en_gb.py`. -/
def vowelColumns : List String :=
  ["tense", "long", "diphthong", "high", "mid", "low", "front", "central", "back",
   "round"]

/-- `VOWELS_SET` of `language/en_gb.py` (the duplicated `"ɑ"` literal of
the Python set collapses). -/
def enGbVowels : List String :=
  ["e", "u", "æ", "ɑ", "ɒ", "ɔ", "ə", "ɜ", "ɪ", "i", "ʊ", "ʌ", "iː", "uː", "ɜː",
   "ɔː", "ɑː", "eɪ", "aɪ", "ɔɪ", "aʊ", "əʊ", "eə", "ɪə", "ʊə"]

/-- `PHONEME_FEATURES` of `language/en_gb.py`, in source order. -/
def enGbFeatures : List (String × FeatMap) :=
  [("p", [("voiced", .bool false), ("labial", .bool true), ("manner", .str "plosive")]),
   ("b", [("voiced", .bool true), ("labial", .bool true), ("manner", .str "plosive")]),
   ("f", [("voiced", .bool false), ("labial", .bool true), ("dental", .bool true),
          ("manner", .str "fricative")]),
   ("v", [("voiced", .bool true), ("labial", .bool true), ("dental", .bool true),
          ("manner", .str "fricative")]),
   ("t", [("voiced", .bool false), ("place", .str "alveolar"), ("manner", .str "plosive")]),
   ("θ", [("voiced", .bool false), ("place", .str "alveolar"), ("dental", .bool true),
          ("manner", .str "fricative")]),
   ("ð", [("voiced", .bool true), ("place", .str "alveolar"), ("dental", .bool true),
          ("manner", .str "fricative")]),
   ("d", [("voiced", .bool true), ("place", .str "alveolar"), ("manner", .str "plosive")]),
   ("k", [("voiced", .bool false), ("place", .str "velar"), ("manner", .str "plosive")]),
   ("g", [("voiced", .bool true), ("place", .str "velar"), ("manner", .str "plosive")]),
   ("s", [("voiced", .bool false), ("place", .str "alveolar"), ("manner", .str "fricative")]),
   ("z", [("voiced", .bool true), ("place", .str "alveolar"), ("manner", .str "fricative")]),
   ("ʃ", [("voiced", .bool false), ("place", .str "post-alveolar"),
          ("manner", .str "fricative")]),
   ("ʒ", [("voiced", .bool true), ("place", .str "post-alveolar"),
          ("manner", .str "fricative")]),
   ("m", [("voiced", .bool true), ("labial", .bool true), ("manner", .str "nasal")]),
   ("n", [("voiced", .bool true), ("place", .str "alveolar"), ("manner", .str "nasal")]),
   ("ŋ", [("voiced", .bool true), ("place", .str "velar"), ("manner", .str "nasal")]),
   ("l", [("voiced", .bool true), ("place", .str "alveolar"),
          ("manner", .str "lateral_approximant")]),
   ("ɫ", [("voiced", .bool true), ("place", .str "alveolar"),
          ("manner", .str "lateral_approximant")]),
   ("r", [("voiced", .bool true), ("place", .str "post-alveolar"),
          ("manner", .str "approximant")]),
   ("w", [("voiced", .bool true), ("labial", .bool true), ("place", .str "velar"),
          ("manner", .str "approximant")]),
   ("j", [("voiced", .bool true), ("place", .str "palatal"), ("manner", .str "approximant")]),
   ("tʃ", [("voiced", .bool false), ("place", .str "post-alveolar"),
           ("manner", .str "affricate")]),
   ("dʒ", [("voiced", .bool true), ("place", .str "post-alveolar"),
           ("manner", .str "affricate")]),
   ("ɪ", [("high", .bool true), ("front", .bool true), ("round", .bool false),
          ("tense", .bool false), ("long", .bool false)]),
   ("e", [("mid", .bool true), ("front", .bool true), ("round", .bool false),
          ("tense", .bool false), ("long", .bool false)]),
   ("æ", [("low", .bool true), ("front", .bool true), ("round", .bool false),
          ("tense", .bool false), ("long", .bool false)]),
   ("ʌ", [("mid", .bool true), ("back", .bool true), ("round", .bool false),
          ("tense", .bool false), ("long", .bool false)]),
   ("ɒ", [("low", .bool true), ("back", .bool true), ("round", .bool true),
          ("tense", .bool false), ("long", .bool false)]),
   ("ɐ", [("low", .bool true), ("central", .bool true), ("round", .bool false),
          ("tense", .bool false), ("long", .bool false)]),
   ("ʊ", [("high", .bool true), ("back", .bool true), ("round", .bool true),
          ("tense", .bool false), ("long", .bool false)]),
   ("ə", [("mid", .bool true), ("central", .bool true), ("round", .bool false),
          ("tense", .bool false), ("long", .bool false)]),
   ("i", [("high", .bool true), ("front", .bool true), ("round", .bool false),
          ("tense", .bool true), ("long", .bool true)]),
   ("u", [("high", .bool true), ("back", .bool true), ("round", .bool true),
          ("tense", .bool true), ("long", .bool false)]),
   ("ɜ", [("mid", .bool true), ("central", .bool true), ("round", .bool false),
          ("tense", .bool false), ("long", .bool false)]),
   ("ɔ", [("mid", .bool true), ("back", .bool true), ("round", .bool true),
          ("tense", .bool false), ("long", .bool false)]),
   ("ɑ", [("low", .bool true), ("back", .bool true), ("round", .bool false),
          ("tense", .bool false), ("long", .bool false)]),
   ("iː", [("high", .bool true), ("front", .bool true), ("round", .bool false),
           ("tense", .bool true), ("long", .bool true)]),
   ("uː", [("high", .bool true), ("back", .bool true), ("round", .bool true),
           ("tense", .bool true), ("long", .bool true)]),
   ("ɜː", [("mid", .bool true), ("central", .bool true), ("round", .bool false),
           ("tense", .bool false), ("long", .bool true)]),
   ("ɔː", [("mid", .bool true), ("back", .bool true), ("round", .bool true),
           ("tense", .bool false), ("long", .bool true)]),
   ("ɑː", [("low", .bool true), ("back", .bool true), ("round", .bool false),
           ("tense", .bool false), ("long", .bool true)]),
   ("eɪ", [("mid", .bool true), ("high", .bool true), ("front", .bool true),
           ("long", .bool true)]),
   ("aɪ", [("high", .bool true), ("low", .bool true), ("back", .bool true),
           ("long", .bool true)]),
   ("ɔɪ", [("high", .bool true), ("mid", .bool true), ("back", .bool true),
           ("long", .bool true)]),
   ("aʊ", [("high", .bool true), ("low", .bool true), ("back", .bool true),
           ("long", .bool true), ("round", .bool true)]),
   ("əʊ", [("high", .bool true), ("mid", .bool true), ("back", .bool true),
           ("long", .bool true), ("round", .bool true)]),
   ("eə", [("mid", .bool true), ("front", .bool true), ("long", .bool true)]),
   ("ɪə", [("high", .bool true), ("front", .bool true), ("long", .bool true)]),
   ("iə", [("high", .bool true), ("front", .bool true), ("long", .bool true)]),
   ("ʊə", [("high", .bool true), ("back", .bool true), ("long", .bool true),
           ("round", .bool true)])]

/-- The `BitArrayGenerator` built from `language/en_gb.py` exactly as the
repository's tests build it: `vowels=VOWELS_SET`,
`features_per_phoneme=PHONEME_FEATURES`, `features=FEATURES` (whose two
column sets are sorted into tuples by `sort_features`). -/
def enGb : Schema :=
  { vowels := enGbVowels
    features_per_phoneme := enGbFeatures
    consCols := sort_features consonantColumns
    vowelCols := sort_features vowelColumns }

example : enGb.consCols =
    ["affricate", "alveolar", "approximant", "dental", "fricative", "glottal",
     "labial", "lateral_approximant", "nasal", "palatal", "plosive",
     "post-alveolar", "velar", "voiced"] := by decide

example : enGb.vowelCols =
    ["back", "central", "diphthong", "front", "high", "long", "low", "mid",
     "round", "tense"] := by decide

example : max_syllable_length enGb = 38 := by decide

example : max_phoneme_size enGb = 2 := by decide

example : ipa_tokenizer enGb "strɪŋz" = ["s", "t", "r", "ɪ", "ŋ", "z"] := by decide

example : ipa_tokenizer enGb "ɪnsaɪt" = ["ɪ", "n", "s", "aɪ", "t"] := by decide

example : ipa_tokenizer enGb "tʃ" = ["t", "ʃ"] := by decide

example : ipa_tokenizer enGb "t" = [] := by decide

/-- The encoding of a single phoneme: the composite
`features_to_bitarray(self.get_phoneme_features(p), self._features[ft])`
that `update_array_segment` ORs into the running segment. -/
def encode_phoneme (sch : Schema) (phoneme feature_type : String) : Except PyErr (List Bool) :=
  match get_phoneme_features sch phoneme with
  | .error e => .error e
  | .ok fd => features_to_bitarray fd (featuresOf sch feature_type)

/-!  Helper lemmas about the bit operations and the encoder. -/

theorem bitOr2_ok_iff (a b : List Bool) (c : List Bool) :
    bitOr2 a b = .ok c ↔ a.length = b.length ∧ c = List.zipWith (fun x y => x || y) a b := by
  unfold bitOr2
  split
  · constructor
    · intro h
      cases h
      exact ⟨by assumption, rfl⟩
    · rintro ⟨-, rfl⟩
      rfl
  · constructor
    · intro h
      cases h
    · rintro ⟨h, -⟩
      exact absurd h (by assumption)

theorem bitOr2_ok_length (a b c : List Bool) (h : bitOr2 a b = .ok c) :
    c.length = a.length := by
  obtain ⟨hl, rfl⟩ := (bitOr2_ok_iff a b c).1 h
  simp [List.length_zipWith, hl]

theorem zipWith_or_any_left (a b : List Bool) (hl : a.length = b.length)
    (ha : a.any (fun x => x) = true) :
    (List.zipWith (fun x y => x || y) a b).any (fun x => x) = true := by
  induction a generalizing b with
  | nil => simp at ha
  | cons x xs ih =>
      cases b with
      | nil => simp at hl
      | cons y ys =>
          simp only [List.zipWith_cons_cons, List.any_cons, Bool.or_eq_true] at ha ⊢
          rcases ha with hx | hxs
          · exact Or.inl (by simp [hx])
          · exact Or.inr (ih ys (by simpa using hl) hxs)

theorem bitOr2_any_left (a b c : List Bool) (h : bitOr2 a b = .ok c)
    (ha : a.any (fun x => x) = true) : c.any (fun x => x) = true := by
  obtain ⟨hl, rfl⟩ := (bitOr2_ok_iff a b c).1 h
  exact zipWith_or_any_left a b hl ha

theorem features_to_bitarray_ok_length (fd : FeatMap) (cols : List String)
    (bv : List Bool) (h : features_to_bitarray fd cols = .ok bv) :
    bv.length = cols.length := by
  induction cols generalizing bv with
  | nil =>
      unfold features_to_bitarray at h
      cases h
      rfl
  | cons col cols ih =>
      unfold features_to_bitarray at h
      cases hc : column_bit fd col with
      | error e => rw [hc] at h; cases h
      | ok b =>
          rw [hc] at h
          cases hr : features_to_bitarray fd cols with
          | error e => rw [hr] at h; cases h
          | ok bs =>
              rw [hr] at h
              cases h
              simp [ih bs hr]

theorem update_array_segment_eq (sch : Schema) (p : String) (seg : List Bool)
    (ft : String) :
    update_array_segment sch p seg ft =
      match encode_phoneme sch p ft with
      | .error e => .error e
      | .ok bv => bitOr2 seg bv := by
  unfold update_array_segment encode_phoneme
  cases get_phoneme_features sch p with
  | error e => rfl
  | ok fd => cases features_to_bitarray fd (featuresOf sch ft) <;> rfl

theorem update_array_segment_ok_length (sch : Schema) (p : String) (seg seg2 : List Bool)
    (ft : String) (h : update_array_segment sch p seg ft = .ok seg2) :
    seg2.length = seg.length := by
  rw [update_array_segment_eq] at h
  cases he : encode_phoneme sch p ft with
  | error e => rw [he] at h; cases h
  | ok bv => rw [he] at h; exact bitOr2_ok_length seg bv seg2 h

/-!  Helper lemmas about the syllabifier building blocks. -/

theorem encode_phoneme_ok_length (sch : Schema) (p ft : String) (bv : List Bool)
    (h : encode_phoneme sch p ft = .ok bv) : bv.length = (featuresOf sch ft).length := by
  unfold encode_phoneme at h
  cases hg : get_phoneme_features sch p with
  | error e => rw [hg] at h; cases h
  | ok fd => rw [hg] at h; exact features_to_bitarray_ok_length fd _ bv h

theorem gather_segment_ok_length (sch : Schema) (vm : Bool) (ft : String) :
    ∀ (toks : List String) (seg seg2 : List Bool) (rest : List String),
      gather_segment sch vm ft seg toks = .ok (seg2, rest) → seg2.length = seg.length := by
  intro toks
  induction toks with
  | nil =>
      intro seg seg2 rest h
      unfold gather_segment at h
      cases h
      rfl
  | cons t ts ih =>
      intro seg seg2 rest h
      unfold gather_segment at h
      split at h
      · cases hu : update_array_segment sch t seg ft with
        | error e => rw [hu] at h; cases h
        | ok segU =>
            rw [hu] at h
            have := ih segU seg2 rest h
            rw [this]
            exact update_array_segment_ok_length sch t seg segU ft hu
      · cases h
        rfl

theorem gather_segment_rest_le (sch : Schema) (vm : Bool) (ft : String) :
    ∀ (toks : List String) (seg seg2 : List Bool) (rest : List String),
      gather_segment sch vm ft seg toks = .ok (seg2, rest) → rest.length ≤ toks.length := by
  intro toks
  induction toks with
  | nil =>
      intro seg seg2 rest h
      unfold gather_segment at h
      cases h
      exact Nat.le_refl _
  | cons t ts ih =>
      intro seg seg2 rest h
      unfold gather_segment at h
      split at h
      · cases hu : update_array_segment sch t seg ft with
        | error e => rw [hu] at h; cases h
        | ok segU =>
            rw [hu] at h
            exact Nat.le_trans (ih segU seg2 rest h) (Nat.le_succ _)
      · cases h
        exact Nat.le_refl _

theorem gather_segment_cons_consumed (sch : Schema) (vm : Bool) (ft : String)
    (t : String) (ts : List String) (seg seg2 : List Bool) (rest : List String)
    (hmode : decide (t ∈ sch.vowels) = vm)
    (h : gather_segment sch vm ft seg (t :: ts) = .ok (seg2, rest)) :
    rest.length ≤ ts.length := by
  unfold gather_segment at h
  rw [hmode] at h
  simp only [if_pos rfl] at h
  cases hu : update_array_segment sch t seg ft with
  | error e => rw [hu] at h; cases h
  | ok segU =>
      rw [hu] at h
      exact gather_segment_rest_le sch vm ft ts segU seg2 rest h

theorem getLast?_mem_self {α : Type} : ∀ (l : List α) (a : α), l.getLast? = some a → a ∈ l := by
  intro l
  induction l with
  | nil => intro a h; cases h
  | cons x xs ih =>
      intro a h
      cases xs with
      | nil =>
          simp only [List.getLast?_singleton, Option.some.injEq] at h
          simp [h]
      | cons y ys =>
          rw [List.getLast?_cons_cons] at h
          exact List.mem_cons_of_mem _ (ih a h)

theorem mem_of_mem_dropLast {α : Type} : ∀ (l : List α) (a : α), a ∈ l.dropLast → a ∈ l := by
  intro l
  induction l with
  | nil => intro a h; simp at h
  | cons x xs ih =>
      intro a h
      cases xs with
      | nil => simp at h
      | cons y ys =>
          rw [List.dropLast_cons₂] at h
          cases h with
          | head => exact List.mem_cons_self _ _
          | tail _ h2 => exact List.mem_cons_of_mem _ (ih a h2)

theorem end_merge_ok_shape (results out : List Syl) (onset : List Bool)
    (h : end_merge results onset = .ok out) :
    ∃ last o nu c c2, results.getLast? = some last ∧ last.onset = some o ∧
      last.nucleus = some nu ∧ last.coda = some c ∧ bitOr2 c onset = .ok c2 ∧
      out = results.dropLast ++ [⟨some o, some nu, some c2⟩] := by
  unfold end_merge at h
  split at h
  · cases h
  next last hl =>
    split at h
    next o nu c ho hnu hc =>
      split at h
      · cases h
      next c2 hb =>
        cases h
        exact ⟨last, o, nu, c, c2, hl, ho, hnu, hc, hb, rfl⟩
    next hfall =>
      cases h

theorem boundary_merge_ok_facts (results results2 : List Syl) (onset onset2 : List Bool)
    (v : Bool) (h : boundary_merge results onset v = .ok (results2, onset2)) :
    results2.length = results.length ∧ onset2.length = onset.length ∧
      ∀ (P : Syl → Prop), (∀ s, P s → P ⟨s.onset, s.nucleus, none⟩) →
        (∀ s ∈ results, P s) → ∀ s ∈ results2, P s := by
  unfold boundary_merge at h
  split at h
  next hl =>
    cases h
    exact ⟨rfl, rfl, fun P _ hall => hall⟩
  next last hl =>
    split at h
    next hc =>
      cases h
      exact ⟨rfl, rfl, fun P _ hall => hall⟩
    next c hc =>
      split at h
      · cases h
      next hb =>
        cases h
        have hne : 1 ≤ results.length := by
          cases results with
          | nil => cases hl
          | cons a l => simp
        have hlen2 : onset2.length = onset.length := by
          have h1 := bitOr2_ok_length c onset onset2 hb
          have h2 : c.length = onset.length := ((bitOr2_ok_iff c onset onset2).1 hb).1
          rw [h1, h2]
        refine ⟨?_, hlen2, ?_⟩
        · cases v with
          | false => simp
          | true =>
              simp only [if_true, List.length_append, List.length_dropLast,
                List.length_singleton]
              omega
        · intro P hdel hall s hs
          cases v with
          | false =>
              simp only [Bool.false_eq_true, if_false] at hs
              exact hall s hs
          | true =>
              simp only [if_true, List.mem_append, List.mem_singleton] at hs
              cases hs with
              | inl hs2 => exact hall s (mem_of_mem_dropLast results s hs2)
              | inr hs2 =>
                  subst hs2
                  exact hdel last (hall last (getLast?_mem_self results last hl))
theorem syllLoopF_len_le (sch : Schema) :
    ∀ (fuel : Nat) (toks : List String) (results out : List Syl),
      syllLoopF sch fuel toks results = .ok out → results.length ≤ out.length := by
  intro fuel
  induction fuel with
  | zero => intro toks results out h; cases h
  | succ f ih =>
      intro toks results out h
      cases toks with
      | nil =>
          unfold syllLoopF at h
          cases h
          exact Nat.le_refl _
      | cons t0 ts0 =>
          unfold syllLoopF at h
          split at h
          · cases h
          next onset rest hg =>
            split at h
            next =>
              obtain ⟨last, o, nu, c, c2, hl, ho, hnu, hc, hb, hout⟩ :=
                end_merge_ok_shape results out onset h
              subst hout
              have h1 : 1 ≤ results.length := by
                cases results with
                | nil => cases hl
                | cons a l => simp
              simp only [List.length_append, List.length_dropLast, List.length_singleton]
              omega
            next t ts' =>
              split at h
              · cases h
              next results2 onset2 hbm =>
                split at h
                · split at h
                  · cases h
                  next nucleus rest2 hgn =>
                    split at h
                    · cases h
                    next coda rest3 hgc =>
                      have hlen :=
                        (boundary_merge_ok_facts results results2 onset onset2 _ hbm).1
                      have h2 := ih rest3 (results2 ++ [mkResult onset2 nucleus coda]) out h
                      simp only [List.length_append, List.length_singleton] at h2
                      omega
                · cases h
/-- The record invariant of claim C6: a nucleus is always stored, and a
stored onset or coda has at least one set bit. -/
def syl_invariant (s : Syl) : Bool :=
  s.nucleus.isSome &&
  (match s.onset with | some o => o.any (fun b => b) | none => true) &&
  (match s.coda with | some c => c.any (fun b => b) | none => true)

theorem mkResult_invariant (onset nucleus coda : List Bool) :
    syl_invariant (mkResult onset nucleus coda) = true := by
  unfold mkResult syl_invariant
  by_cases hc : coda.any (fun b => b) = true <;>
    by_cases ho : onset.any (fun b => b) = true <;>
      simp [hc, ho]

theorem coda_removal_invariant (s : Syl) (h : syl_invariant s = true) :
    syl_invariant ⟨s.onset, s.nucleus, none⟩ = true := by
  unfold syl_invariant at h ⊢
  simp only [Bool.and_eq_true] at h ⊢
  exact ⟨⟨h.1.1, h.1.2⟩, trivial⟩

theorem syllLoopF_invariant (sch : Schema) :
    ∀ (fuel : Nat) (toks : List String) (results out : List Syl),
      (∀ s ∈ results, syl_invariant s = true) →
      syllLoopF sch fuel toks results = .ok out →
      ∀ s ∈ out, syl_invariant s = true := by
  intro fuel
  induction fuel with
  | zero => intro toks results out hres h; cases h
  | succ f ih =>
      intro toks results out hres h
      cases toks with
      | nil =>
          unfold syllLoopF at h
          cases h
          exact hres
      | cons t0 ts0 =>
          unfold syllLoopF at h
          split at h
          · cases h
          next onset rest hg =>
            split at h
            next =>
              obtain ⟨last, o, nu, c, c2, hl, ho, hnu, hc, hb, hout⟩ :=
                end_merge_ok_shape results out onset h
              subst hout
              intro s hs
              rw [List.mem_append] at hs
              cases hs with
              | inl hs2 => exact hres s (mem_of_mem_dropLast results s hs2)
              | inr hs2 =>
                  rw [List.mem_singleton] at hs2
                  subst hs2
                  have hlast := hres last (getLast?_mem_self results last hl)
                  unfold syl_invariant at hlast ⊢
                  rw [ho, hnu, hc] at hlast
                  simp only [Bool.and_eq_true] at hlast ⊢
                  refine ⟨⟨rfl, hlast.1.2⟩, ?_⟩
                  exact bitOr2_any_left c onset c2 hb hlast.2
            next t ts' =>
              split at h
              · cases h
              next results2 onset2 hbm =>
                split at h
                · split at h
                  · cases h
                  next nucleus rest2 hgn =>
                    split at h
                    · cases h
                    next coda rest3 hgc =>
                      have hres2 : ∀ s ∈ results2, syl_invariant s = true :=
                        (boundary_merge_ok_facts results results2 onset onset2 _ hbm).2.2
                          (fun s => syl_invariant s = true) coda_removal_invariant hres
                      refine ih rest3 (results2 ++ [mkResult onset2 nucleus coda]) out ?_ h
                      intro s hs
                      rw [List.mem_append, List.mem_singleton] at hs
                      cases hs with
                      | inl hs2 => exact hres2 s hs2
                      | inr hs2 => rw [hs2]; exact mkResult_invariant onset2 nucleus coda
                · cases h
/-- Width invariant: stored fields have the column width of their
feature type. -/
def syl_widths (sch : Schema) (s : Syl) : Prop :=
  (∀ o, s.onset = some o → o.length = sch.consCols.length) ∧
  (∀ nu, s.nucleus = some nu → nu.length = sch.vowelCols.length) ∧
  (∀ c, s.coda = some c → c.length = sch.consCols.length)

theorem featuresOf_consonant (sch : Schema) : featuresOf sch "consonant" = sch.consCols := rfl

theorem featuresOf_vowel (sch : Schema) : featuresOf sch "vowel" = sch.vowelCols := rfl

theorem empty_vector_length (sch : Schema) (ft : String) :
    (empty_vector sch ft).length = (featuresOf sch ft).length :=
  List.length_replicate _ _

theorem mkResult_onset (o n c : List Bool) :
    (mkResult o n c).onset = if o.any (fun b => b) = true then some o else none := rfl

theorem mkResult_nucleus (o n c : List Bool) : (mkResult o n c).nucleus = some n := rfl

theorem mkResult_coda (o n c : List Bool) :
    (mkResult o n c).coda = if c.any (fun b => b) = true then some c else none := rfl

theorem coda_removal_widths (sch : Schema) (s : Syl) (h : syl_widths sch s) :
    syl_widths sch ⟨s.onset, s.nucleus, none⟩ :=
  ⟨h.1, h.2.1, fun c hc => by cases hc⟩

theorem mkResult_widths (sch : Schema) (onset nucleus coda : List Bool)
    (ho : onset.length = sch.consCols.length)
    (hnu : nucleus.length = sch.vowelCols.length)
    (hc : coda.length = sch.consCols.length) :
    syl_widths sch (mkResult onset nucleus coda) := by
  refine ⟨?_, ?_, ?_⟩
  · intro o hoeq
    rw [mkResult_onset] at hoeq
    split at hoeq
    · injection hoeq with he
      rw [← he]
      exact ho
    · cases hoeq
  · intro nu hnueq
    rw [mkResult_nucleus] at hnueq
    injection hnueq with he
    rw [← he]
    exact hnu
  · intro c2 hceq
    rw [mkResult_coda] at hceq
    split at hceq
    · injection hceq with he
      rw [← he]
      exact hc
    · cases hceq

theorem syllLoopF_widths (sch : Schema) :
    ∀ (fuel : Nat) (toks : List String) (results out : List Syl),
      (∀ s ∈ results, syl_widths sch s) →
      syllLoopF sch fuel toks results = .ok out →
      ∀ s ∈ out, syl_widths sch s := by
  intro fuel
  induction fuel with
  | zero => intro toks results out hres h; cases h
  | succ f ih =>
      intro toks results out hres h
      cases toks with
      | nil =>
          unfold syllLoopF at h
          cases h
          exact hres
      | cons t0 ts0 =>
          unfold syllLoopF at h
          split at h
          · cases h
          next onset rest hg =>
            have honset : onset.length = sch.consCols.length := by
              have h1 := gather_segment_ok_length sch false "consonant" (t0 :: ts0)
                (empty_vector sch "consonant") onset rest hg
              rw [h1, empty_vector_length, featuresOf_consonant]
            split at h
            next =>
              obtain ⟨last, o, nu, c, c2, hl, ho, hnu, hc, hb, hout⟩ :=
                end_merge_ok_shape results out onset h
              subst hout
              intro s hs
              rw [List.mem_append] at hs
              cases hs with
              | inl hs2 => exact hres s (mem_of_mem_dropLast results s hs2)
              | inr hs2 =>
                  rw [List.mem_singleton] at hs2
                  subst hs2
                  have hlast := hres last (getLast?_mem_self results last hl)
                  refine ⟨?_, ?_, ?_⟩
                  · intro o2 ho2
                    injection ho2 with he
                    rw [← he]
                    exact hlast.1 o ho
                  · intro nu2 hnu2
                    injection hnu2 with he
                    rw [← he]
                    exact hlast.2.1 nu hnu
                  · intro c3 hc3
                    injection hc3 with he
                    rw [← he]
                    rw [bitOr2_ok_length c onset c2 hb]
                    exact hlast.2.2 c hc
            next t ts' =>
              split at h
              · cases h
              next results2 onset2 hbm =>
                split at h
                · split at h
                  · cases h
                  next nucleus rest2 hgn =>
                    split at h
                    · cases h
                    next coda rest3 hgc =>
                      obtain ⟨-, honset2, hpres⟩ :=
                        boundary_merge_ok_facts results results2 onset onset2 _ hbm
                      have hres2 : ∀ s ∈ results2, syl_widths sch s :=
                        hpres (syl_widths sch) (coda_removal_widths sch) hres
                      have hnuclen : nucleus.length = sch.vowelCols.length := by
                        have h1 := gather_segment_ok_length sch true "vowel" (t :: ts')
                          (empty_vector sch "vowel") nucleus rest2 hgn
                        rw [h1, empty_vector_length, featuresOf_vowel]
                      have hcodalen : coda.length = sch.consCols.length := by
                        have h1 := gather_segment_ok_length sch false "consonant" rest2
                          (empty_vector sch "consonant") coda rest3 hgc
                        rw [h1, empty_vector_length, featuresOf_consonant]
                      refine ih rest3 (results2 ++ [mkResult onset2 nucleus coda]) out ?_ h
                      intro s hs
                      rw [List.mem_append, List.mem_singleton] at hs
                      cases hs with
                      | inl hs2 => exact hres2 s hs2
                      | inr hs2 =>
                          rw [hs2]
                          refine mkResult_widths sch onset2 nucleus coda ?_ hnuclen hcodalen
                          rw [honset2]
                          exact honset
                · cases h
theorem gather_segment_consume_all (sch : Schema) (ft : String) :
    ∀ (toks : List String) (seg : List Bool),
      seg.length = (featuresOf sch ft).length →
      (∀ t ∈ toks, decide (t ∈ sch.vowels) = false) →
      (∀ t ∈ toks, (encode_phoneme sch t ft).isOk = true) →
      ∃ seg2, gather_segment sch false ft seg toks = .ok (seg2, []) := by
  intro toks
  induction toks with
  | nil =>
      intro seg hlen hnv henc
      exact ⟨seg, rfl⟩
  | cons t ts ih =>
      intro seg hlen hnv henc
      have hmode : decide (t ∈ sch.vowels) = false := hnv t (List.mem_cons_self t ts)
      have hencok := henc t (List.mem_cons_self t ts)
      obtain ⟨bv, hbv⟩ : ∃ bv, encode_phoneme sch t ft = .ok bv := by
        cases hx : encode_phoneme sch t ft with
        | error e => rw [hx] at hencok; cases hencok
        | ok bv => exact ⟨bv, rfl⟩
      have hbvlen : bv.length = (featuresOf sch ft).length :=
        encode_phoneme_ok_length sch t ft bv hbv
      have hupd : update_array_segment sch t seg ft =
          .ok (List.zipWith (fun x y => x || y) seg bv) := by
        rw [update_array_segment_eq, hbv]
        show bitOr2 seg bv = _
        unfold bitOr2
        rw [if_pos (by rw [hlen, hbvlen])]
      have hlen2 : (List.zipWith (fun x y => x || y) seg bv).length =
          (featuresOf sch ft).length := by
        rw [List.length_zipWith, hlen, hbvlen, Nat.min_self]
      obtain ⟨seg2, hrec⟩ := ih (List.zipWith (fun x y => x || y) seg bv) hlen2
        (fun u hu => hnv u (List.mem_cons_of_mem t hu))
        (fun u hu => henc u (List.mem_cons_of_mem t hu))
      refine ⟨seg2, ?_⟩
      unfold gather_segment
      rw [hmode, if_pos rfl, hupd]
      exact hrec

theorem syllabify_tokens_consonants_only (sch : Schema) (toks : List String)
    (hne : toks ≠ []) (hnv : ∀ t ∈ toks, ¬ t ∈ sch.vowels)
    (henc : ∀ t ∈ toks, (encode_phoneme sch t "consonant").isOk = true) :
    syllabify_tokens sch toks = .error .indexError := by
  cases toks with
  | nil => exact absurd rfl hne
  | cons t0 ts0 =>
      obtain ⟨seg2, hg⟩ := gather_segment_consume_all sch "consonant" (t0 :: ts0)
        (empty_vector sch "consonant") (empty_vector_length sch "consonant")
        (fun t ht => by simpa using hnv t ht) henc
      unfold syllabify_tokens
      unfold syllLoopF
      rw [hg]
      rfl
theorem syllabify_tokens_ok_nil_iff (sch : Schema) (toks : List String) :
    syllabify_tokens sch toks = .ok [] ↔ toks = [] := by
  constructor
  · intro h
    cases toks with
    | nil => rfl
    | cons t0 ts0 =>
        exfalso
        unfold syllabify_tokens at h
        unfold syllLoopF at h
        split at h
        · cases h
        next onset rest hg =>
          split at h
          next =>
            rw [show end_merge [] onset = Except.error .indexError from rfl] at h
            cases h
          next t ts' =>
            split at h
            · cases h
            next results2 onset2 hbm =>
              rw [show boundary_merge [] onset (decide (t ∈ sch.vowels)) =
                  Except.ok ([], onset) from rfl] at hbm
              have hr2 : results2 = [] := by
                injection hbm with hpair
                exact (Prod.mk.injEq _ _ _ _ ▸ hpair.symm).1.symm ▸ rfl
              split at h
              · split at h
                · cases h
                next nucleus rest2 hgn =>
                  split at h
                  · cases h
                  next coda rest3 hgc =>
                    have hlen := syllLoopF_len_le sch _ rest3
                      (results2 ++ [mkResult onset2 nucleus coda]) [] h
                    rw [hr2] at hlen
                    simp at hlen
              · cases h
  · intro h
    rw [h]
    rfl
/-!  Tokenizer loop accounting (for claim C7). -/

theorem searchLen_le (phones : List (List Char)) (w : List Char) :
    ∀ n, searchLen phones w n ≤ n := by
  intro n
  induction n with
  | zero => exact Nat.le_refl _
  | succ i ih =>
      unfold searchLen
      split
      · exact Nat.le_refl _
      · exact Nat.le_trans ih (Nat.le_succ _)

theorem tokLoopF_spec (phones : List (List Char)) (cap : Nat) :
    ∀ (fuel : Nat) (rest : List Char) (start : Nat), rest.length < fuel →
      ((tokLoopF phones cap fuel rest start).1.map List.length).sum +
          (tokLoopF phones cap fuel rest start).2.length = rest.length + 1 ∧
        (start + rest.length) ∈ (tokLoopF phones cap fuel rest start).2 := by
  intro fuel
  induction fuel with
  | zero => intro rest start h; exact absurd h (Nat.not_lt_zero _)
  | succ f ih =>
      intro rest start h
      cases rest with
      | nil =>
          unfold tokLoopF
          simp
      | cons c rs =>
          have hw_le : ((c :: rs).take cap).length ≤ (c :: rs).length := by
            rw [List.length_take]
            exact Nat.min_le_right _ _
          have hL_le : searchLen phones ((c :: rs).take cap) ((c :: rs).take cap).length ≤
              (c :: rs).length :=
            Nat.le_trans (searchLen_le phones _ _) hw_le
          unfold tokLoopF
          simp only
          split
          next hL0 =>
              have hfuel : rs.length < f := by
                simp only [List.length_cons] at h
                omega
              obtain ⟨hsum, hmem⟩ := ih rs (start + 1) hfuel
              constructor
              · simp only [List.length_cons]
                omega
              · simp only [List.mem_cons]
                right
                have : start + (rs.length + 1) = start + 1 + rs.length := by omega
                simp only [List.length_cons, this]
                exact hmem
          next hL0 =>
              set L := searchLen phones ((c :: rs).take cap) ((c :: rs).take cap).length with hLdef
              have hL1 : 1 ≤ L := Nat.one_le_iff_ne_zero.2 hL0
              have hLle : L ≤ rs.length + 1 := by simpa using hL_le
              have hdrop : ((c :: rs).drop L).length = rs.length + 1 - L := by
                rw [List.length_drop]
                simp
              have hfuel : ((c :: rs).drop L).length < f := by
                rw [hdrop]
                simp only [List.length_cons] at h
                omega
              obtain ⟨hsum, hmem⟩ := ih ((c :: rs).drop L) (start + L) hfuel
              rw [hdrop] at hsum hmem
              have htok : (((c :: rs).take cap).take L).length = L := by
                rw [List.length_take]
                exact Nat.min_eq_left (searchLen_le phones _ _)
              refine ⟨?_, ?_⟩
              · simp only [List.map_cons, List.sum_cons, htok, List.length_cons]
                omega
              · have harith : start + (c :: rs).length = start + L + (rs.length + 1 - L) := by
                  simp only [List.length_cons]
                  omega
                rw [harith]
                exact hmem

/-!  Aggregation lemmas (for claims C4 and C8). -/

theorem aggLoop_eq_take (mss : Nat) :
    ∀ (l : List Syl) (idx : Nat), 1 ≤ idx → idx ≤ mss →
      aggLoop mss idx l = ((l.take (mss + 1 - idx)).map syl_fields).flatten := by
  intro l
  induction l with
  | nil => intro idx h1 h2; simp [aggLoop]
  | cons s rest ih =>
      intro idx h1 h2
      unfold aggLoop
      by_cases he : idx = mss
      · rw [if_pos he]
        have hx : mss + 1 - idx = 1 := by omega
        rw [hx]
        simp
      · rw [if_neg he]
        rw [ih (idx + 1) (by omega) (by omega)]
        have hx : mss + 1 - idx = (mss + 1 - (idx + 1)) + 1 := by omega
        rw [hx]
        simp

theorem aggLoop_length_le (mss msl : Nat) :
    ∀ (l : List Syl) (idx : Nat), idx ≤ mss →
      (∀ s ∈ l, (syl_fields s).length ≤ msl) →
      (aggLoop mss idx l).length ≤ (mss + 1 - idx) * msl := by
  intro l
  induction l with
  | nil => intro idx h1 h2; simp [aggLoop]
  | cons s rest ih =>
      intro idx h1 h2
      have hs := h2 s (List.mem_cons_self s rest)
      unfold aggLoop
      by_cases he : idx = mss
      · rw [if_pos he]
        have hx : mss + 1 - idx = 1 := by omega
        rw [hx]
        simpa using hs
      · rw [if_neg he]
        have hrec := ih (idx + 1) (by omega)
          (fun u hu => h2 u (List.mem_cons_of_mem s hu))
        rw [List.length_append]
        have hx : (mss + 1 - idx) * msl = msl + (mss + 1 - (idx + 1)) * msl := by
          have : mss + 1 - idx = (mss + 1 - (idx + 1)) + 1 := by omega
          rw [this]
          ring
        rw [hx]
        omega

theorem syl_fields_length_le (sch : Schema) (s : Syl) (h : syl_widths sch s) :
    (syl_fields s).length ≤ max_syllable_length sch := by
  obtain ⟨ho, hnu, hc⟩ := h
  unfold syl_fields max_syllable_length
  have hol : (match s.onset with | some o => o | none => ([] : List Bool)).length ≤
      sch.consCols.length := by
    cases hx : s.onset with
    | none => simp
    | some o => simpa using Nat.le_of_eq (ho o hx)
  have hnl : (match s.nucleus with | some nu => nu | none => ([] : List Bool)).length ≤
      sch.vowelCols.length := by
    cases hx : s.nucleus with
    | none => simp
    | some nu => simpa using Nat.le_of_eq (hnu nu hx)
  have hcl : (match s.coda with | some c => c | none => ([] : List Bool)).length ≤
      sch.consCols.length := by
    cases hx : s.coda with
    | none => simp
    | some c => simpa using Nat.le_of_eq (hc c hx)
  simp only [List.length_append]
  omega
/-!  Fold lemmas (for claim C5). -/

theorem zipWith_xor_replicate_false (a : List Bool) :
    List.zipWith (fun x y => xor x y) (List.replicate a.length false) a = a := by
  induction a with
  | nil => rfl
  | cons x xs ih =>
      simp only [List.length_cons, List.replicate_succ, List.zipWith_cons_cons,
        Bool.false_xor]
      rw [ih]

theorem fold_one_slice_identity (msl : Nat) (arr : List Bool)
    (hmsl : 0 < msl) (hlen : arr.length = msl) :
    fold 1 msl arr = .ok arr := by
  unfold fold
  rw [if_neg (by omega)]
  unfold foldGo
  have hslice : (arr.drop 0).take msl = arr := by
    rw [List.drop_zero, ← hlen, List.take_length]
  rw [hslice]
  have hxor : bitXor2 (List.replicate msl false) arr = .ok arr := by
    unfold bitXor2
    rw [if_pos (by rw [List.length_replicate, hlen])]
    rw [← hlen, zipWith_xor_replicate_false]
  rw [hxor]
  rfl

theorem fold_one_slice_error (msl k : Nat) (arr : List Bool)
    (hmsl : 0 < msl) (hlen : arr.length = msl) :
    fold (k + 2) msl arr = .error .valueError := by
  unfold fold
  rw [if_neg (by omega)]
  unfold foldGo
  have hslice : (arr.drop 0).take msl = arr := by
    rw [List.drop_zero, ← hlen, List.take_length]
  rw [hslice]
  have hxor : bitXor2 (List.replicate msl false) arr = .ok arr := by
    unfold bitXor2
    rw [if_pos (by rw [List.length_replicate, hlen])]
    rw [← hlen, zipWith_xor_replicate_false]
  rw [hxor]
  show foldGo msl arr arr (0 + msl) (k + 1) = .error .valueError
  unfold foldGo
  have hslice2 : (arr.drop (0 + msl)).take msl = [] := by
    rw [Nat.zero_add, ← hlen, List.drop_length, List.take_nil]
  rw [hslice2]
  have hxor2 : bitXor2 arr [] = .error .valueError := by
    unfold bitXor2
    rw [if_neg (by simp [hlen]; omega)]
  rw [hxor2]

/-!  Entropy lemma (for claim C9). -/

theorem entropy_foldl_eq (total : Nat) :
    ∀ (counts : List Nat) (e : ℝ),
      counts.foldl
        (fun (e : ℝ) (c : Nat) => if 0 < c then
            e - ((c : ℝ) / (total : ℝ)) * Real.logb 2 ((c : ℝ) / (total : ℝ))
          else e) e =
      e - ((counts.filter (fun c => decide (0 < c))).map
        (fun (c : Nat) => ((c : ℝ) / (total : ℝ)) * Real.logb 2 ((c : ℝ) / (total : ℝ)))).sum := by
  intro counts
  induction counts with
  | nil => intro e; simp
  | cons c cs ih =>
      intro e
      simp only [List.foldl_cons, List.filter_cons]
      by_cases hc : 0 < c
      · rw [if_pos hc, ih]
        simp only [hc, decide_eq_true_eq, if_pos, List.map_cons, List.sum_cons]
        ring
      · rw [if_neg hc, ih]
        simp [hc]
/-!  Split lemmas and the specification-side bit formulas (claim C3). -/

theorem splitOnChar_ne_nil (c : Char) : ∀ (l : List Char), splitOnChar c l ≠ [] := by
  intro l
  cases l with
  | nil => simp [splitOnChar]
  | cons x xs =>
      unfold splitOnChar
      split
      · simp
      · split
        · simp
        · simp

theorem splitOnChar_length_ge_two (c : Char) :
    ∀ (l : List Char), l.contains c = true → 2 ≤ (splitOnChar c l).length := by
  intro l
  induction l with
  | nil => intro h; simp [List.contains] at h
  | cons x xs ih =>
      intro h
      unfold splitOnChar
      by_cases hx : x = c
      · rw [if_pos hx]
        have := splitOnChar_ne_nil c xs
        cases hs : splitOnChar c xs with
        | nil => exact absurd hs this
        | cons a t => simp
      · rw [if_neg hx]
        have hxs : xs.contains c = true := by
          simp only [List.contains_cons] at h
          rcases Bool.or_eq_true_iff.1 h with h1 | h2
          · exact absurd (eq_of_beq h1).symm hx
          · exact h2
        have h2 := ih hxs
        cases hs : splitOnChar c xs with
        | nil => exact absurd hs (splitOnChar_ne_nil c xs)
        | cons a t =>
            rw [hs] at h2
            simpa using h2

/-- The bit formula exactly as claim C3 states it: 1 iff (a) the column
splits as `attr=val` and the map sends `attr` to `val`, or (b) the
column is a boolean feature mapped to true, or (c) the column occurs as
a value anywhere in the feature map. -/
def spec_bit_claim (fd : FeatMap) (col : String) : Bool :=
  (col.toList.contains '=' &&
    (match splitOnChar '=' col.toList with
     | [attr, val] => decide (fd.lookup (String.mk attr) = some (.str (String.mk val)))
     | _ => false)) ||
  decide (fd.lookup col = some (.bool true)) ||
  fd.any (fun kv => decide (kv.2 = FeatVal.str col))

/-- The amended bit formula: the `=` test and the boolean/value tests
are exclusive branches, and a bare column is set when it is mapped to
`True` or occurs among the string values. -/
def spec_bit_amended (fd : FeatMap) (col : String) : Bool :=
  if col.toList.contains '=' then
    match splitOnChar '=' col.toList with
    | [attr, val] => decide (fd.lookup (String.mk attr) = some (.str (String.mk val)))
    | _ => false
  else
    decide (fd.lookup col = some (.bool true)) ||
    fd.any (fun kv => decide (kv.2 = FeatVal.str col))

theorem column_bit_amended (fd : FeatMap) (col : String)
    (h1 : (splitOnChar '=' col.toList).length ≤ 2)
    (h2 : ∀ s, fd.lookup col = some (.str s) → s = "") :
    column_bit fd col = .ok (spec_bit_amended fd col) := by
  unfold column_bit spec_bit_amended
  by_cases hc : col.toList.contains '=' = true
  · rw [if_pos hc, if_pos hc]
    have hge := splitOnChar_length_ge_two '=' col.toList hc
    cases hs : splitOnChar '=' col.toList with
    | nil => exact absurd hs (splitOnChar_ne_nil '=' col.toList)
    | cons a t =>
        cases t with
        | nil => rw [hs] at hge; simp at hge
        | cons b t2 =>
            cases t2 with
            | nil => rfl
            | cons d t3 => rw [hs] at h1; simp at h1
  · rw [if_neg hc, if_neg hc]
    cases hl : fd.lookup col with
    | none => simp [hl, featTruthy]
    | some v =>
        cases v with
        | bool b =>
            cases b with
            | false => simp [hl, featTruthy]
            | true => simp [hl, featTruthy, pyIntVal]
        | str s =>
            have hs0 : s = "" := h2 s hl
            subst hs0
            simp [hl, featTruthy]

theorem features_to_bitarray_amended (fd : FeatMap) :
    ∀ (cols : List String),
      (∀ col ∈ cols, (splitOnChar '=' col.toList).length ≤ 2) →
      (∀ col ∈ cols, ∀ s, fd.lookup col = some (.str s) → s = "") →
      features_to_bitarray fd cols = .ok (cols.map (spec_bit_amended fd)) := by
  intro cols
  induction cols with
  | nil => intro h1 h2; rfl
  | cons col cols ih =>
      intro h1 h2
      unfold features_to_bitarray
      rw [column_bit_amended fd col (h1 col (List.mem_cons_self col cols))
        (h2 col (List.mem_cons_self col cols))]
      rw [ih (fun u hu => h1 u (List.mem_cons_of_mem col hu))
        (fun u hu => h2 u (List.mem_cons_of_mem col hu))]
      rfl
/-- Decidable equality for `Except` results, so concrete runs can be
checked by `decide`. -/
instance {e a : Type} [DecidableEq e] [DecidableEq a] : DecidableEq (Except e a) := fun x y =>
  match x, y with
  | .error u, .error v =>
      if h : u = v then isTrue (by rw [h]) else isFalse (fun hh => h (by cases hh; rfl))
  | .error _, .ok _ => isFalse (fun hh => by cases hh)
  | .ok _, .error _ => isFalse (fun hh => by cases hh)
  | .ok u, .ok v =>
      if h : u = v then isTrue (by rw [h]) else isFalse (fun hh => h (by cases hh; rfl))

/-!  Concrete encodings under the en_gb schema, used by the claims about
`syllabify("ɪnsaɪt")`.  Bit order is the sorted consonant/vowel column
order of `enGb`. -/

/-- Encoding of "n" over the consonant columns: alveolar, nasal, voiced. -/
def encN : List Bool :=
  [false, true, false, false, false, false, false, false, true, false, false, false,
   false, true]

/-- Encoding of "s" over the consonant columns: alveolar, fricative. -/
def encS : List Bool :=
  [false, true, false, false, true, false, false, false, false, false, false, false,
   false, false]

/-- Bitwise OR of the encodings of "n" and "s". -/
def encNS : List Bool :=
  [false, true, false, false, true, false, false, false, true, false, false, false,
   false, true]

/-- Encoding of "t" over the consonant columns: alveolar, plosive. -/
def encT : List Bool :=
  [false, true, false, false, false, false, false, false, false, false, true, false,
   false, false]

/-- Encoding of "ɪ" over the vowel columns: front, high. -/
def encVowelI : List Bool :=
  [false, false, false, true, true, false, false, false, false, false]

/-- Encoding of "aɪ" over the vowel columns: back, high, long, low. -/
def encVowelAI : List Bool :=
  [true, false, false, false, true, true, true, false, false, false]

/-- The syllable records `ipa_to_syllable` produces for "ɪnsaɪt". -/
def insaitSylls : List Syl :=
  [⟨none, some encVowelI, none⟩, ⟨some encNS, some encVowelAI, some encT⟩]

example : encode_phoneme enGb "n" "consonant" = .ok encN := by decide
example : encode_phoneme enGb "s" "consonant" = .ok encS := by decide
example : bitOr2 encN encS = .ok encNS := by decide
example : ipa_to_syllable enGb "ɪnsaɪt" = .ok insaitSylls := by decide
/-!  The claims. -/

/-- Claim C1 (code bug evidence): the tokenizer is claimed to match the
longest known phoneme at each position and to re-join to the input, but
the window cap `min(self._max_phoneme_size, len(ipa_str) - 1)` at line
178 subtracts 1 from the whole input length: on "tʃ" (itself a known
phoneme of the schema) it returns ["t", "ʃ"] instead of ["tʃ"], and on
the single known phoneme "t" it returns [] (so the tokens do not
re-join to the input), contradicting the function's own docstring. -/
theorem c1_tokenizer_window_bug :
    ("tʃ" ∈ enGb.features_per_phoneme.map (fun kv => kv.1)) ∧
    ipa_tokenizer enGb "tʃ" = ["t", "ʃ"] ∧
    ("t" ∈ enGb.features_per_phoneme.map (fun kv => kv.1)) ∧
    ipa_tokenizer enGb "t" = [] := by
  refine ⟨by decide, by decide, by decide, by decide⟩

/-- Claim C2: whenever a previous syllable exists and has a coda at the
moment a new onset has been gathered, the onset is redefined as the
bitwise OR of the previous coda with the gathered onset, and (when the
upcoming token is a vowel) the previous record loses its coda field;
consequently `syllabify("ɪnsaɪt")` gives exactly 2 syllables, the first
a bare nucleus, the second with onset `enc("n") OR enc("s")`. -/
theorem c2_boundary_merge_spec :
    (∀ (results : List Syl) (last : Syl) (c onset onset2 : List Bool) (v : Bool),
        results.getLast? = some last → last.coda = some c →
        bitOr2 c onset = .ok onset2 →
        boundary_merge results onset v =
          .ok ((if v then results.dropLast ++ [⟨last.onset, last.nucleus, none⟩]
                else results), onset2)) ∧
    encode_phoneme enGb "n" "consonant" = .ok encN ∧
    encode_phoneme enGb "s" "consonant" = .ok encS ∧
    bitOr2 encN encS = .ok encNS ∧
    ipa_to_syllable enGb "ɪnsaɪt" = .ok insaitSylls ∧
    insaitSylls.length = 2 ∧
    (insaitSylls.get ⟨0, by decide⟩).onset = none ∧
    (insaitSylls.get ⟨0, by decide⟩).coda = none ∧
    (insaitSylls.get ⟨1, by decide⟩).onset = some encNS := by
  refine ⟨?_, by decide, by decide, by decide, by decide, by decide, by decide,
    by decide, by decide⟩
  intro results last c onset onset2 v hl hc hb
  simp only [boundary_merge, hl, hc, hb]

/-- Claim C2 witness: the merge rule applied at the concrete state the
"ɪnsaɪt" run reaches when its second onset has been gathered. -/
theorem c2_boundary_merge_spec_witness :
    boundary_merge [⟨none, some encVowelI, some encNS⟩]
        (List.replicate 14 false) true =
      .ok ((if true then
              ([⟨none, some encVowelI, some encNS⟩] : List Syl).dropLast ++
                [⟨(Syl.mk none (some encVowelI) (some encNS)).onset,
                  (Syl.mk none (some encVowelI) (some encNS)).nucleus, none⟩]
            else [⟨none, some encVowelI, some encNS⟩]), encNS) :=
  c2_boundary_merge_spec.1 [⟨none, some encVowelI, some encNS⟩]
    ⟨none, some encVowelI, some encNS⟩ encNS (List.replicate 14 false) encNS true
    (by decide) (by decide) (by decide)
/-- Claim C5 counterexample: with the en_gb schema (slice width 38) and
the configured default of 6 syllables per chunk, `fold` applied to an
input that is already one slice wide raises `ValueError` (the bitarray
XOR of a 38-bit accumulator with an empty out-of-range slice) instead
of returning the input unchanged. -/
theorem c5_fold_counterexample :
    fold 6 (max_syllable_length enGb)
      (List.replicate (max_syllable_length enGb) true) = .error .valueError := by
  decide

/-- Claim C5 (amended): `fold` returns a slice-width input unchanged
when `max_syllables_per_text_chunk = 1`; for any configured value of 2
or more it raises `ValueError` on a slice-width input. -/
theorem c5_fold_amended :
    (∀ (msl : Nat) (arr : List Bool), 0 < msl → arr.length = msl →
      fold 1 msl arr = .ok arr) ∧
    (∀ (msl k : Nat) (arr : List Bool), 0 < msl → arr.length = msl →
      fold (k + 2) msl arr = .error .valueError) :=
  ⟨fun msl arr h1 h2 => fold_one_slice_identity msl arr h1 h2,
   fun msl k arr h1 h2 => fold_one_slice_error msl k arr h1 h2⟩

/-- Claim C5 witness: both amended branches at width 2. -/
theorem c5_fold_amended_witness :
    fold 1 2 [true, false] = .ok [true, false] ∧
    fold 2 2 [true, false] = .error .valueError :=
  ⟨c5_fold_amended.1 2 [true, false] (by decide) (by decide),
   c5_fold_amended.2 2 0 [true, false] (by decide) (by decide)⟩

/-- Claim C8 counterexample: fed a malformed syllable record whose
nucleus is wider than the padding target, the aggregation neither
raises (`[0] * negative` is empty in Python) nor truncates: it returns
the accumulated 3 bits against a target of 1 × 1 = 1 bit. -/
theorem c8_overflow_counterexample :
    to_word_encoding 1 1 [⟨none, some [true, true, true], none⟩] =
      [true, true, true] ∧
    (to_word_encoding 1 1 [⟨none, some [true, true, true], none⟩]).length = 3 := by
  refine ⟨by decide, by decide⟩

/-- The aggregation bound shared by the C4 and C8 results: records
coming out of the syllabifier make the accumulated length at most the
padding target. -/
theorem agg_bound (sch : Schema) (toks : List String) (mss : Nat) (sylls : List Syl)
    (h1 : 1 ≤ mss) (h : syllabify_tokens sch toks = .ok sylls) :
    (aggLoop mss 1 sylls.reverse).length ≤ max_syllable_length sch * mss := by
  have hw : ∀ s ∈ sylls, syl_widths sch s :=
    syllLoopF_widths sch _ toks [] sylls
      (fun s hs => absurd hs (List.not_mem_nil s)) h
  have hb := aggLoop_length_le mss (max_syllable_length sch) sylls.reverse 1 h1
    (fun s hs => syl_fields_length_le sch s (hw s (List.mem_reverse.1 hs)))
  have hx : mss + 1 - 1 = mss := by omega
  rw [hx] at hb
  rw [Nat.mul_comm]
  exact hb

/-- Padded length once the accumulation fits the target. -/
theorem to_word_encoding_length_of_le (msl mss : Nat) (sylls : List Syl)
    (h : (aggLoop mss 1 sylls.reverse).length ≤ msl * mss) :
    (to_word_encoding msl mss sylls).length = msl * mss := by
  unfold to_word_encoding
  simp only [List.length_append, List.length_replicate]
  omega

/-- Claim C8 (amended): the aggregator never raises — when the
accumulated bits already reach or exceed the padding target it returns
them unpadded — and for syllable records produced by the syllabifier the
accumulation never exceeds the target, the result being exactly
`max_syllable_length * max_syllables` bits. -/
theorem c8_overflow_amended :
    (∀ (msl mss : Nat) (sylls : List Syl),
        msl * mss ≤ (aggLoop mss 1 sylls.reverse).length →
        to_word_encoding msl mss sylls = aggLoop mss 1 sylls.reverse) ∧
    (∀ (sch : Schema) (toks : List String) (mss : Nat) (sylls : List Syl),
        1 ≤ mss → syllabify_tokens sch toks = .ok sylls →
        (aggLoop mss 1 sylls.reverse).length ≤ max_syllable_length sch * mss ∧
        (to_word_encoding (max_syllable_length sch) mss sylls).length =
          max_syllable_length sch * mss) := by
  constructor
  · intro msl mss sylls h
    show aggLoop mss 1 sylls.reverse ++
        List.replicate (msl * mss - (aggLoop mss 1 sylls.reverse).length) false =
      aggLoop mss 1 sylls.reverse
    have hz : msl * mss - (aggLoop mss 1 sylls.reverse).length = 0 := by omega
    rw [hz]
    simp
  · intro sch toks mss sylls h1 h
    have hb := agg_bound sch toks mss sylls h1 h
    exact ⟨hb, to_word_encoding_length_of_le _ _ _ hb⟩

/-- Claim C8 witness: the amended statement at the "ɪnsaɪt" run of the
en_gb schema (38-bit slices, 6 slices). -/
theorem c8_overflow_amended_witness :
    to_word_encoding 1 1 [⟨none, some [true], none⟩] =
      aggLoop 1 1 ([⟨none, some [true], none⟩] : List Syl).reverse ∧
    ((aggLoop 6 1 insaitSylls.reverse).length ≤ max_syllable_length enGb * 6 ∧
      (to_word_encoding (max_syllable_length enGb) 6 insaitSylls).length =
        max_syllable_length enGb * 6) :=
  ⟨c8_overflow_amended.1 1 1 [⟨none, some [true], none⟩] (by decide),
   c8_overflow_amended.2 enGb ["ɪ", "n", "s", "aɪ", "t"] 6 insaitSylls (by decide)
     (by decide)⟩

/-- Claim C10: a non-empty token sequence of known consonants (no vowel
token) makes the syllabifier raise `IndexError` — the onset loop
consumes everything and the end-of-input branch indexes `results[-1]`
of the still-empty list — and the empty syllable sequence is returned
exactly for an empty token sequence. -/
theorem c10_consonant_only (sch : Schema) (toks : List String) :
    (toks ≠ [] →
      (∀ t ∈ toks, ¬ t ∈ sch.vowels ∧ (encode_phoneme sch t "consonant").isOk = true) →
      syllabify_tokens sch toks = .error .indexError) ∧
    (syllabify_tokens sch toks = .ok [] ↔ toks = []) := by
  constructor
  · intro hne hh
    exact syllabify_tokens_consonants_only sch toks hne
      (fun t ht => (hh t ht).1) (fun t ht => (hh t ht).2)
  · exact syllabify_tokens_ok_nil_iff sch toks

/-- Claim C10 witness: the consonant cluster ["s", "t"] under en_gb. -/
theorem c10_consonant_only_witness :
    syllabify_tokens enGb ["s", "t"] = .error .indexError ∧
    (syllabify_tokens enGb [] = .ok [] ↔ ([] : List String) = []) :=
  ⟨(c10_consonant_only enGb ["s", "t"]).1 (by decide) (by decide),
   (c10_consonant_only enGb []).2⟩
/-- Unfolding equation for the aggregation (the `let` written out). -/
theorem to_word_encoding_eq (msl mss : Nat) (sylls : List Syl) :
    to_word_encoding msl mss sylls =
      aggLoop mss 1 sylls.reverse ++
        List.replicate (msl * mss - (aggLoop mss 1 sylls.reverse).length) false := rfl

/-- Claim C4: for a well-formed input (one the syllabifier accepts) and
any `max_syllables ≥ 1`, the word encoding processes the syllables in
reverse order, concatenates each record's present fields in
reverse-alphabetical key order (`syl_fields`), stops after
`max_syllables` records, and right-pads with zeros to exactly
`max_syllables × (2 × consonant_width + vowel_width)` bits. -/
theorem c4_word_encoding (sch : Schema) (ipa : String) (mss : Nat) (sylls : List Syl)
    (h1 : 1 ≤ mss) (h2 : ipa_to_syllable sch ipa = .ok sylls) :
    ipa_to_bitarray sch ipa mss =
      .ok ((((sylls.reverse).take mss).map syl_fields).flatten ++
        List.replicate (max_syllable_length sch * mss -
          ((((sylls.reverse).take mss).map syl_fields).flatten).length) false) ∧
    (to_word_encoding (max_syllable_length sch) mss sylls).length =
      max_syllable_length sch * mss ∧
    max_syllable_length sch = sch.consCols.length * 2 + sch.vowelCols.length := by
  have hagg : aggLoop mss 1 sylls.reverse =
      (((sylls.reverse).take mss).map syl_fields).flatten := by
    have hx := aggLoop_eq_take mss sylls.reverse 1 (Nat.le_refl 1) h1
    simpa using hx
  refine ⟨?_, ?_, rfl⟩
  · unfold ipa_to_bitarray
    rw [h2]
    show Except.ok (to_word_encoding (max_syllable_length sch) mss sylls) = _
    rw [to_word_encoding_eq, hagg]
  · exact to_word_encoding_length_of_le _ _ _
      (agg_bound sch (ipa_tokenizer sch ipa) mss sylls h1 h2)

/-- Claim C4 witness: the "ɪnsaɪt" run with the default 6 syllables. -/
theorem c4_word_encoding_witness :
    ipa_to_bitarray enGb "ɪnsaɪt" 6 =
      .ok ((((insaitSylls.reverse).take 6).map syl_fields).flatten ++
        List.replicate (max_syllable_length enGb * 6 -
          ((((insaitSylls.reverse).take 6).map syl_fields).flatten).length) false) ∧
    (to_word_encoding (max_syllable_length enGb) 6 insaitSylls).length =
      max_syllable_length enGb * 6 ∧
    max_syllable_length enGb = enGb.consCols.length * 2 + enGb.vowelCols.length :=
  c4_word_encoding enGb "ɪnsaɪt" 6 insaitSylls (by decide) (by decide)

/-- Claim C6: every record returned by the syllabifier has a nucleus
field, stored onsets and codas are non-zero, and at record creation the
onset/coda fields are stored exactly when some bit is set. -/
theorem c6_syllable_record_invariant (sch : Schema) (toks : List String) (sylls : List Syl)
    (h : syllabify_tokens sch toks = .ok sylls) :
    (∀ s ∈ sylls, syl_invariant s = true) ∧
    (∀ onset nucleus coda : List Bool,
        (mkResult onset nucleus coda).nucleus = some nucleus ∧
        (mkResult onset nucleus coda).onset =
          (if onset.any (fun b => b) = true then some onset else none) ∧
        (mkResult onset nucleus coda).coda =
          (if coda.any (fun b => b) = true then some coda else none)) :=
  ⟨syllLoopF_invariant sch (toks.length + 1) toks [] sylls
      (fun s hs => absurd hs (List.not_mem_nil s)) h,
   fun _ _ _ => ⟨rfl, rfl, rfl⟩⟩

/-- Claim C6 witness: the invariant for both records of the "ɪnsaɪt"
run. -/
theorem c6_syllable_record_invariant_witness :
    syl_invariant ⟨none, some encVowelI, none⟩ = true ∧
    syl_invariant ⟨some encNS, some encVowelAI, some encT⟩ = true :=
  ⟨(c6_syllable_record_invariant enGb ["ɪ", "n", "s", "aɪ", "t"] insaitSylls
      (by decide)).1 ⟨none, some encVowelI, none⟩ (by decide),
   (c6_syllable_record_invariant enGb ["ɪ", "n", "s", "aɪ", "t"] insaitSylls
      (by decide)).1 ⟨some encNS, some encVowelAI, some encT⟩ (by decide)⟩
/-- Claim C3 counterexample: on the feature map `{place: "velar"}` with
column list `["place"]` the claim's formula gives the bit vector `[0]`
(clause (a) needs an `=`, (b) needs a boolean `True`, (c) needs the
column among the values), but the code evaluates `int("velar")` and
raises `ValueError`; a column with two `=` signs also raises, from the
two-name unpacking of `col.split("=")`. -/
theorem c3_encoder_counterexample :
    features_to_bitarray [("place", FeatVal.str "velar")] ["place"] =
      .error .valueError ∧
    spec_bit_claim [("place", FeatVal.str "velar")] "place" = false ∧
    features_to_bitarray [("a", FeatVal.bool true)] ["a=b=c"] = .error .valueError := by
  refine ⟨by decide, by decide, by decide⟩

/-- Claim C3 (amended): for columns containing at most one `=`, none of
which the feature map sends to a non-empty string, the encoder returns
one bit per column in order, the bit for an `attr=val` column set iff
the map sends `attr` to the string `val`, and the bit for a bare column
set iff the column is mapped to boolean `True` or occurs among the
string values of the map. -/
theorem c3_encoder_amended (fd : FeatMap) (cols : List String)
    (h1 : ∀ col ∈ cols, (splitOnChar '=' col.toList).length ≤ 2)
    (h2 : cols.all (fun col =>
        match fd.lookup col with
        | some (.str s) => s == ""
        | _ => true) = true) :
    features_to_bitarray fd cols = .ok (cols.map (spec_bit_amended fd)) ∧
    (cols.map (spec_bit_amended fd)).length = cols.length := by
  have h2p : ∀ col ∈ cols, ∀ s, fd.lookup col = some (.str s) → s = "" := by
    intro col hc s hs
    have hx := List.all_eq_true.1 h2 col hc
    rw [hs] at hx
    simpa using hx
  exact ⟨features_to_bitarray_amended fd cols h1 h2p, by simp⟩

/-- Claim C3 witness: the feature map of "t" against the full sorted
en_gb consonant column list. -/
theorem c3_encoder_amended_witness :
    features_to_bitarray
        [("voiced", FeatVal.bool false), ("place", FeatVal.str "alveolar"),
         ("manner", FeatVal.str "plosive")] enGb.consCols =
      .ok (enGb.consCols.map (spec_bit_amended
        [("voiced", FeatVal.bool false), ("place", FeatVal.str "alveolar"),
         ("manner", FeatVal.str "plosive")])) ∧
    (enGb.consCols.map (spec_bit_amended
        [("voiced", FeatVal.bool false), ("place", FeatVal.str "alveolar"),
         ("manner", FeatVal.str "plosive")])).length = enGb.consCols.length :=
  c3_encoder_amended
    [("voiced", FeatVal.bool false), ("place", FeatVal.str "alveolar"),
     ("manner", FeatVal.str "plosive")] enGb.consCols (by decide) (by decide)

/-- Claim C7 counterexample: on "tQt" (with the unknown letter Q) the
tokenizer does not fail: it returns the tokens ["t", "t"], silently
dropping the unknown character, and merely logs warnings (at position 1
for the unmatched character, and the spurious one every call emits at
end of input). -/
theorem c7_tokenizer_counterexample :
    ipa_tokenizer_log enGb "tQt" = (["t", "t"], [1, 3]) ∧
    ipa_tokenizer enGb "tQt" = ["t", "t"] := by
  refine ⟨by decide, by decide⟩

/-- Claim C7 (amended): the tokenizer never raises.  Every call returns
a token list plus a non-empty warning log; the log always contains the
end-of-input position (a spurious warning fired on every call, even for
fully known input), and each of the other warnings accounts for exactly
one skipped character: matched token lengths plus warnings always sum
to the input length plus one. -/
theorem c7_tokenizer_amended (sch : Schema) (s : String) :
    (ipa_tokenizer_log sch s).2 ≠ [] ∧
    s.length ∈ (ipa_tokenizer_log sch s).2 ∧
    ((ipa_tokenizer_log sch s).1.map String.length).sum +
      (ipa_tokenizer_log sch s).2.length = s.length + 1 := by
  obtain ⟨hsum, hmem⟩ := tokLoopF_spec (phonesL sch)
    (min (max_phoneme_size sch) (s.toList.length - 1))
    (s.toList.length + 1) s.toList 0 (Nat.lt_succ_self _)
  have h2 : (ipa_tokenizer_log sch s).2 =
      (tokLoopF (phonesL sch) (min (max_phoneme_size sch) (s.toList.length - 1))
        (s.toList.length + 1) s.toList 0).2 := rfl
  have h1 : (ipa_tokenizer_log sch s).1 =
      (tokLoopF (phonesL sch) (min (max_phoneme_size sch) (s.toList.length - 1))
        (s.toList.length + 1) s.toList 0).1.map String.mk := rfl
  have hlen : s.length = s.toList.length := rfl
  refine ⟨?_, ?_, ?_⟩
  · rw [h2]
    intro hnil
    rw [hnil] at hmem
    exact absurd hmem (List.not_mem_nil _)
  · rw [h2, hlen]
    simpa using hmem
  · rw [h1, h2, hlen]
    have hmap : ((tokLoopF (phonesL sch) (min (max_phoneme_size sch) (s.toList.length - 1))
        (s.toList.length + 1) s.toList 0).1.map String.mk).map String.length =
        (tokLoopF (phonesL sch) (min (max_phoneme_size sch) (s.toList.length - 1))
          (s.toList.length + 1) s.toList 0).1.map List.length := by
      rw [List.map_map]
      rfl
    rw [hmap]
    omega

/-- Claim C9: the Shannon entropy of a counter with zero total
observations is exactly 0 (the early return avoids any division), and
for a non-zero total it is minus the sum of `p·log2 p` over the
positive counts of the empirical distribution (floats modelled as
reals). -/
theorem c9_entropy (counts : List Nat) :
    (counts.sum = 0 → calculate_entropy counts = 0) ∧
    (counts.sum ≠ 0 → calculate_entropy counts =
      -(((counts.filter (fun c => decide (0 < c))).map
        (fun (c : Nat) => ((c : ℝ) / (counts.sum : ℝ)) *
          Real.logb 2 ((c : ℝ) / (counts.sum : ℝ)))).sum)) := by
  constructor
  · intro h
    unfold calculate_entropy
    rw [if_pos h]
  · intro h
    unfold calculate_entropy
    rw [if_neg h, entropy_foldl_eq]
    ring

/-- Claim C9 witness: the empty-distribution counter [0, 0] and the
two-point counter [1, 1]. -/
theorem c9_entropy_witness :
    calculate_entropy [0, 0] = 0 ∧
    calculate_entropy [1, 1] =
      -(((([1, 1] : List Nat).filter (fun c => decide (0 < c))).map
        (fun (c : Nat) => ((c : ℝ) / (([1, 1] : List Nat).sum : ℝ)) *
          Real.logb 2 ((c : ℝ) / (([1, 1] : List Nat).sum : ℝ)))).sum) :=
  ⟨(c9_entropy [0, 0]).1 (by decide), (c9_entropy [1, 1]).2 (by decide)⟩
